import Mathlib

/-!
# Verification of the cancellable hash-search server
Shallow embedding of `src/examples/python/cancellation/server.py`.

Byte strings (Python `bytes` / `str`) are modelled as `List Nat` of byte
values.  Python's `assert` failures (`AssertionError`) are modelled by
`Option`-valued functions returning `none`.  The code targets the
Python 2 generator semantics its `from __future__` imports indicate:
`raise StopIteration()` inside a generator body simply terminates the
generator, and `str` and `bytes` coincide, so `.lower()` is byte-wise
ASCII lowercasing.
-/

set_option maxRecDepth 4000

/-- Identity continuation that evaluates `n` to a numeral before
substituting it (the match forces the scrutinee).  Semantically
`forceN n k = k n` (lemma `forceN_eq`); it only keeps concrete kernel
evaluations from re-evaluating shared subterms. -/
def forceN {α : Sort _} (n : Nat) (k : Nat → α) : α :=
  match n with
  | 0 => k 0
  | m + 1 => k (m + 1)

/-- Applies `forceN` elementwise over a list of bytes. -/
def forceListN {α : Sort _} : List Nat → (List Nat → α) → α
  | [], k => k []
  | n :: rest, k => forceN n fun m => forceListN rest fun t => k (m :: t)

/-- ASCII lowercasing of one byte, the per-character effect of Python's
`.lower()` used by `_get_hamming_distance`. -/
def lowerByte (c : Nat) : Nat :=
  if 65 ≤ c ∧ c ≤ 90 then c + 32 else c

/-- Model of `_get_hamming_distance(a, b)` (server.py lines 47-54): asserts
`len(a) == len(b)` (modelled by `none`), then counts positions whose
lowercased bytes differ.  The loop over `zip(a, b)` is `List.zip`. -/
def _get_hamming_distance (a b : List Nat) : Option Nat :=
  if a.length = b.length then
    some ((a.zip b).countP fun p => lowerByte p.1 != lowerByte p.2)
  else none

/-- The running-minimum loop of `_get_substring_hamming_distance`
(lines 70-74): `min_distance` starts as `None`; each window's distance
(an `Option Nat`, `none` when the inner assert would fire) replaces it
when smaller.  A `none` distance aborts the whole computation. -/
def minDistLoop : List (Option Nat) → Option Nat → Option Nat
  | [], acc => acc
  | none :: _, _ => none
  | some d :: rest, acc =>
    forceN d fun d0 =>
      match acc with
      | none => minDistLoop rest (some d0)
      | some m => minDistLoop rest (some (if d0 < m then d0 else m))

/-- Model of `_get_substring_hamming_distance(candidate, target)` (lines 57-75):
asserts `len(target) <= len(candidate)` and `len(candidate) != 0`
(modelled by `none`), then takes the minimum Hamming distance over the
`len(candidate) - len(target) + 1` windows `candidate[i:i+len(target)]`
(`(candidate.drop i).take target.length`). -/
def _get_substring_hamming_distance (candidate target : List Nat) : Option Nat :=
  if target.length ≤ candidate.length ∧ candidate.length ≠ 0 then
    minDistLoop
      ((List.range (candidate.length - target.length + 1)).map
        fun i => _get_hamming_distance ((candidate.drop i).take target.length) target)
      none
  else none

/-! ## SHA-1 (`hashlib.sha1`) and base64 (`base64.b64encode`)
`_get_hash` delegates to Python's standard library; both primitives are
embedded here bit-for-bit, over `Nat` with explicit `% 2^32`. -/

/-- Truncation to a 32-bit word. -/
def w32 (n : Nat) : Nat := n % 4294967296

/-- Left rotation, 32-bit, by `b ≤ 32` of a word `n < 2^32`: the two
shifted parts occupy disjoint bits, so their OR is their sum. -/
def rotl (b n : Nat) : Nat := n * 2 ^ b % 4294967296 + n / 2 ^ (32 - b)

/-- SHA-1 padding: append `0x80`, zeros to 56 mod 64 bytes, then the
64-bit big-endian bit length. -/
def sha1Pad (msg : List Nat) : List Nat :=
  let l := msg.length
  let zeros := (119 - l % 64) % 64
  let bitLen := l * 8
  msg ++ [128] ++ List.replicate zeros 0 ++
    [bitLen / 72057594037927936 % 256, bitLen / 281474976710656 % 256,
     bitLen / 1099511627776 % 256, bitLen / 4294967296 % 256,
     bitLen / 16777216 % 256, bitLen / 65536 % 256,
     bitLen / 256 % 256, bitLen % 256]

/-- Big-endian packing of bytes into 32-bit words (groups of four). -/
def bytesToWords : List Nat → List Nat
  | b0 :: b1 :: b2 :: b3 :: rest =>
    ((((b0 % 256) * 256 + b1 % 256) * 256 + b2 % 256) * 256 + b3 % 256) :: bytesToWords rest
  | _ => []

/-- Rounds 60-79 of SHA-1 (parity function, constant `0xCA62C1D6`),
with the message schedule computed on the fly: `fuel` counts remaining
rounds of the phase, `w0 … w15` is the sliding window of schedule words
(`w0` is the current round's word) and `a b c d e` the working state.
Each round consumes `w0`, appends `w16 = rotl 1 (w13 xor w8 xor w2 xor w0)`
to the window and rotates the state; every fresh value passes through
`forceN` so concrete runs evaluate each word once. -/
def sha1P4 : Nat → Nat → Nat → Nat → Nat → Nat → Nat → Nat → Nat → Nat →
    Nat → Nat → Nat → Nat → Nat → Nat → Nat → Nat → Nat → Nat → Nat → Nat →
    Nat × Nat × Nat × Nat × Nat
  | 0 => fun _ _ _ _ _ _ _ _ _ _ _ _ _ _ _ _ a b c d e => (a, b, c, d, e)
  | fuel + 1 => fun w0 w1 w2 w3 w4 w5 w6 w7 w8 w9 w10 w11 w12 w13 w14 w15
      a b c d e =>
    forceN (rotl 1 (w13 ^^^ w8 ^^^ w2 ^^^ w0)) fun w16 =>
    forceN (w32 (rotl 5 a + (b ^^^ c ^^^ d) + e + 3395469782 + w0)) fun t =>
    forceN (rotl 30 b) fun b2 =>
    sha1P4 fuel w1 w2 w3 w4 w5 w6 w7 w8 w9 w10 w11 w12 w13 w14 w15 w16
      t a b2 c d

/-- Rounds 40-59 of SHA-1 (majority function, constant `0x8F1BBCDC`);
see `sha1P4` for the argument convention. -/
def sha1P3 : Nat → Nat → Nat → Nat → Nat → Nat → Nat → Nat → Nat → Nat →
    Nat → Nat → Nat → Nat → Nat → Nat → Nat → Nat → Nat → Nat → Nat → Nat →
    Nat × Nat × Nat × Nat × Nat
  | 0 => sha1P4 20
  | fuel + 1 => fun w0 w1 w2 w3 w4 w5 w6 w7 w8 w9 w10 w11 w12 w13 w14 w15
      a b c d e =>
    forceN (rotl 1 (w13 ^^^ w8 ^^^ w2 ^^^ w0)) fun w16 =>
    forceN (w32 (rotl 5 a + ((b &&& c) ||| (b &&& d) ||| (c &&& d)) + e
      + 2400959708 + w0)) fun t =>
    forceN (rotl 30 b) fun b2 =>
    sha1P3 fuel w1 w2 w3 w4 w5 w6 w7 w8 w9 w10 w11 w12 w13 w14 w15 w16
      t a b2 c d

/-- Rounds 20-39 of SHA-1 (parity function, constant `0x6ED9EBA1`);
see `sha1P4` for the argument convention. -/
def sha1P2 : Nat → Nat → Nat → Nat → Nat → Nat → Nat → Nat → Nat → Nat →
    Nat → Nat → Nat → Nat → Nat → Nat → Nat → Nat → Nat → Nat → Nat → Nat →
    Nat × Nat × Nat × Nat × Nat
  | 0 => sha1P3 20
  | fuel + 1 => fun w0 w1 w2 w3 w4 w5 w6 w7 w8 w9 w10 w11 w12 w13 w14 w15
      a b c d e =>
    forceN (rotl 1 (w13 ^^^ w8 ^^^ w2 ^^^ w0)) fun w16 =>
    forceN (w32 (rotl 5 a + (b ^^^ c ^^^ d) + e + 1859775393 + w0)) fun t =>
    forceN (rotl 30 b) fun b2 =>
    sha1P2 fuel w1 w2 w3 w4 w5 w6 w7 w8 w9 w10 w11 w12 w13 w14 w15 w16
      t a b2 c d

/-- Rounds 0-19 of SHA-1 (choice function, constant `0x5A827999`);
see `sha1P4` for the argument convention. -/
def sha1P1 : Nat → Nat → Nat → Nat → Nat → Nat → Nat → Nat → Nat → Nat →
    Nat → Nat → Nat → Nat → Nat → Nat → Nat → Nat → Nat → Nat → Nat → Nat →
    Nat × Nat × Nat × Nat × Nat
  | 0 => sha1P2 20
  | fuel + 1 => fun w0 w1 w2 w3 w4 w5 w6 w7 w8 w9 w10 w11 w12 w13 w14 w15
      a b c d e =>
    forceN (rotl 1 (w13 ^^^ w8 ^^^ w2 ^^^ w0)) fun w16 =>
    forceN (w32 (rotl 5 a + ((b &&& c) ||| ((4294967295 ^^^ b) &&& d)) + e
      + 1518500249 + w0)) fun t =>
    forceN (rotl 30 b) fun b2 =>
    sha1P1 fuel w1 w2 w3 w4 w5 w6 w7 w8 w9 w10 w11 w12 w13 w14 w15 w16
      t a b2 c d

/-- Process one 16-word block: run the 80 rounds from the chaining state
`(h0, h1, h2, h3, h4)` and add the result back into it. -/
def sha1Block (h0 h1 h2 h3 h4 : Nat)
    (w0 w1 w2 w3 w4 w5 w6 w7 w8 w9 w10 w11 w12 w13 w14 w15 : Nat) :
    Nat × Nat × Nat × Nat × Nat :=
  match sha1P1 20 w0 w1 w2 w3 w4 w5 w6 w7 w8 w9 w10 w11 w12 w13 w14 w15
      h0 h1 h2 h3 h4 with
  | (a, b, c, d, e) =>
    forceN (w32 (h0 + a)) fun x0 => forceN (w32 (h1 + b)) fun x1 =>
    forceN (w32 (h2 + c)) fun x2 => forceN (w32 (h3 + d)) fun x3 =>
    forceN (w32 (h4 + e)) fun x4 => (x0, x1, x2, x3, x4)

/-- Fold `sha1Block` over the padded message, 16 words at a time. -/
def sha1Blocks (h : Nat × Nat × Nat × Nat × Nat) : List Nat → Nat × Nat × Nat × Nat × Nat
  | w0 :: w1 :: w2 :: w3 :: w4 :: w5 :: w6 :: w7 ::
    w8 :: w9 :: w10 :: w11 :: w12 :: w13 :: w14 :: w15 :: rest =>
    match h with
    | (h0, h1, h2, h3, h4) =>
      sha1Blocks (sha1Block h0 h1 h2 h3 h4
        w0 w1 w2 w3 w4 w5 w6 w7 w8 w9 w10 w11 w12 w13 w14 w15) rest
  | _ => h

/-- Big-endian bytes of one 32-bit word. -/
def wordBytes (w : Nat) : List Nat :=
  [w / 16777216 % 256, w / 65536 % 256, w / 256 % 256, w % 256]

/-- Model of `hashlib.sha1(msg).digest()`: the 20-byte SHA-1 digest. -/
def sha1 (msg : List Nat) : List Nat :=
  match sha1Blocks (1732584193, 4023233417, 2562383102, 271733878, 3285377520)
      (bytesToWords (sha1Pad msg)) with
  | (h0, h1, h2, h3, h4) =>
    wordBytes h0 ++ wordBytes h1 ++ wordBytes h2 ++ wordBytes h3 ++ wordBytes h4

/-- The base64 alphabet `A-Z a-z 0-9 + /` as a byte for index `i < 64`. -/
def b64char (i : Nat) : Nat :=
  if i < 26 then 65 + i
  else if i < 52 then 97 + (i - 26)
  else if i < 62 then 48 + (i - 52)
  else if i = 62 then 43 else 47

/-- Model of `base64.b64encode`: groups of three bytes become four alphabet
bytes; a final group of one or two bytes is padded with `=` (61). -/
def b64encode : List Nat → List Nat
  | b0 :: b1 :: b2 :: rest =>
    b64char (b0 / 4) :: b64char ((b0 % 4) * 16 + b1 / 16) ::
      b64char ((b1 % 16) * 4 + b2 / 64) :: b64char (b2 % 64) :: b64encode rest
  | [b0, b1] =>
    [b64char (b0 / 4), b64char ((b0 % 4) * 16 + b1 / 16), b64char ((b1 % 16) * 4), 61]
  | [b0] => [b64char (b0 / 4), b64char ((b0 % 4) * 16), 61, 61]
  | [] => []

/-- Model of `_get_hash(secret)` (lines 78-81): base64 of the SHA-1 digest. -/
def _get_hash (secret : List Nat) : List Nat :=
  b64encode (sha1 secret)

-- Sanity checks against standard test vectors (sha1 of b"", b"abc", b"\x00").
example : sha1 [] = [218, 57, 163, 238, 94, 107, 75, 13, 50, 85, 191, 239,
    149, 96, 24, 144, 175, 216, 7, 9] := by rfl

example : sha1 [97, 98, 99] = [169, 153, 62, 54, 71, 6, 129, 106, 186, 62,
    37, 113, 120, 80, 194, 108, 156, 208, 216, 157] := by rfl

example : _get_hash [0] = [87, 54, 107, 56, 110, 98, 68, 80, 43, 84, 57, 83,
    116, 83, 72, 88, 81, 103, 53, 68, 57, 117, 50, 105, 101, 69, 56, 61] := by rfl

/-! ## The Length-Bounded Enumerator (`_find_secret_of_length`) -/

/-- Model of `hash_name_pb2.HashNameResponse`: the Match message.  The default
(absent) response has every field empty/zero. -/
structure HashNameResponse where
  secret : List Nat
  hashed_name : List Nat
  hamming_distance : Nat
deriving DecidableEq, Repr

/-- Ground-truth terminal condition of one run of the enumerator.
`exhausted`, `cancelled` and `found` are the spec's three terminal
outcomes; `invalid` models a propagated `AssertionError` of the
Distance Oracle; `indexErr` models the `IndexError` of `digits[-1]`
on an empty digit vector (only possible for length 0); `fuelOut` is an
artifact of the explicit fuel bound and is proven unreachable for the
fuel `_find_secret_of_length` supplies. -/
inductive TerminalKind where
  | exhausted | cancelled | found | invalid | indexErr | fuelOut
deriving DecidableEq, Repr

/-- Result of the counter-advance code (lines 108-118). -/
inductive IncrResult where
  | next (ds : List Nat) | exhausted | indexError
deriving DecidableEq, Repr

/-- Carry propagation over the digit list, least-significant digit
first: `digits[-1] += 1` followed by the
`while digits[i] == _BYTE_MAX + 1` loop. -/
def incrRev : List Nat → Option (List Nat)
  | [] => none
  | d :: rest =>
    if d + 1 = 256 then (incrRev rest).map fun t => 0 :: t
    else some ((d + 1) :: rest)

/-- The counter advance of lines 108-118 on the big-endian digit list:
increment the last digit and propagate carries leftward; falling off
the most significant digit exhausts the length.  `digits[-1]` on an
empty list raises `IndexError`. -/
def increment : List Nat → IncrResult
  | [] => .indexError
  | d :: rest =>
    match incrRev ((d :: rest).reverse) with
    | none => .exhausted
    | some t => .next t.reverse

/-- The guard of line 95:
`interesting_hamming_distance is not None and distance <= interesting_hamming_distance`. -/
def interestingHit (interesting : Option Nat) (d : Nat) : Bool :=
  match interesting with
  | some t => decide (d ≤ t)
  | none => false

/-- Observable output of one enumerator run: `items` is exactly the
sequence of yielded values (`some` a Match, `none` the sentinel),
`visited` is the ghost trace of candidates whose evaluation was begun
(hash plus distance), and `kind` the ground-truth terminal condition. -/
structure RunOut where
  items : List (Option HashNameResponse)
  visited : List (List Nat)
  kind : TerminalKind
deriving DecidableEq, Repr

/-- The loop body of `_find_secret_of_length` (lines 86-118).  `digits`
is the current counter, `k` counts `stop_event.is_set()` reads (one per
iteration, line 87), and `fuel` bounds the recursion (the caller
supplies `256^length`, enough for every candidate of the length).
Both continue-paths fall through to the same counter advance, exactly
as the source falls through to line 108. -/
def runAux (target : List Nat) (ideal : Nat) (interesting : Option Nat)
    (cancel : Nat → Bool) : List Nat → Nat → Nat → RunOut
  | _, _, 0 => ⟨[], [], .fuelOut⟩
  | digits, k, fuel + 1 =>
    if cancel k then ⟨[none], [], .cancelled⟩
    else
      let secret := digits
      forceListN (_get_hash secret) fun hash =>
      match _get_substring_hamming_distance hash target with
      | none => ⟨[], [secret], .invalid⟩
      | some distance =>
        let response : HashNameResponse := ⟨b64encode secret, hash, distance⟩
        if interestingHit interesting distance then
          -- Surface the interesting candidate, but do not stop (lines 95-99).
          match increment digits with
          | .indexError => ⟨[some response], [secret], .indexErr⟩
          | .exhausted => ⟨[some response], [secret], .exhausted⟩
          | .next ds =>
            let r := runAux target ideal interesting cancel ds (k + 1) fuel
            ⟨some response :: r.items, secret :: r.visited, r.kind⟩
        else if distance ≤ ideal then
          -- Yield the ideal candidate, then the sentinel, then stop (lines 100-107).
          ⟨[some response, none], [secret], .found⟩
        else
          match increment digits with
          | .indexError => ⟨[], [secret], .indexErr⟩
          | .exhausted => ⟨[], [secret], .exhausted⟩
          | .next ds =>
            let r := runAux target ideal interesting cancel ds (k + 1) fuel
            ⟨r.items, secret :: r.visited, r.kind⟩

/-- Model of `_find_secret_of_length(target, ideal_distance, length, stop_event,
interesting_hamming_distance)` (lines 84-118): starts from the all-zero
digit vector.  `cancel k` is the value the `stop_event.is_set()` read of
iteration `k` returns. -/
def _find_secret_of_length (target : List Nat) (ideal length : Nat)
    (cancel : Nat → Bool) (interesting : Option Nat) : RunOut :=
  runAux target ideal interesting cancel (List.replicate length 0) 0 (256 ^ length)

/-! ## The Unbounded Search Driver (`_find_secret`) and the handler -/

/-- Result of the driver's per-length `for` loop (lines 125-132):
the Matches it passed onward (field `yielded`), whether it terminated the driver
(sentinel seen, or `stop_event` observed set after a yield), and the
updated count of its `stop_event.is_set()` reads. -/
structure PullOut where
  yielded : List HashNameResponse
  stopped : Bool
  cnt : Nat
deriving DecidableEq, Repr

/-- The driver's `for candidate in _find_secret_of_length(...)` loop:
a `None` item terminates the driver without yielding; a Match is
yielded onward, after which `stop_event.is_set()` (read number `c`,
line 130) may terminate the driver. -/
def processItems (dcancel : Nat → Bool) : List (Option HashNameResponse) → Nat → PullOut
  | [], c => ⟨[], false, c⟩
  | none :: _, c => ⟨[], true, c⟩
  | some m :: rest, c =>
    if dcancel c then ⟨[m], true, c + 1⟩
    else
      let p := processItems dcancel rest (c + 1)
      ⟨m :: p.yielded, p.stopped, p.cnt⟩

/-- Observable output of a (fuel-bounded prefix of the) driver run.
`stopped = true`: the driver generator terminated normally (it saw the
sentinel, or observed the stop event after a yield).  `err = true`: the
per-length generator raised (`AssertionError` from the oracle, or
`IndexError` at length 0) while the driver was still pulling from it,
and the exception propagates out of the driver, aborting it — no
subsequent length is attempted.  Both false: the driver ran out of
modelling fuel while still willing to continue with the next length —
the unbounded source loop never terminates on its own.  `visited` is
the concatenation of the per-length eager ghost traces (exact whenever
the driver consumes each per-length stream completely, in particular
absent cancellation). -/
structure DriverOut where
  items : List HashNameResponse
  visited : List (List Nat)
  stopped : Bool
  err : Bool
deriving DecidableEq, Repr

/-- The `while True` loop of `_find_secret` (lines 121-134): run the
enumerator for the current length, forward its Matches, stop on its
sentinel or on an observed `stop_event`; if the per-length generator
ends by exhaustion, advance to the next length; if it ends by raising
(`invalid`/`indexErr` — such runs yield no sentinel, so the loop is
still pulling), the exception propagates and the driver aborts with
`err = true`.  A `cancelled`/`found` run always ends with a sentinel,
so when `p.stopped` is false the remaining kinds are exhaustion, the
two exceptions, or the unreachable `fuelOut` (conservatively treated as
an abort).  `ecancel length` is the enumerator's flag-read function for
that length's round; `dcancel` the driver's own flag-read function,
indexed by a running count `c`. -/
def driverAux (target : List Nat) (ideal : Nat) (interesting : Option Nat)
    (ecancel : Nat → Nat → Bool) (dcancel : Nat → Bool) : Nat → Nat → Nat → DriverOut
  | _, _, 0 => ⟨[], [], false, false⟩
  | length, c, fuelLen + 1 =>
    let r := _find_secret_of_length target ideal length (ecancel length) interesting
    let p := processItems dcancel r.items c
    if p.stopped then ⟨p.yielded, r.visited, true, false⟩
    else if r.kind = .exhausted then
      let d := driverAux target ideal interesting ecancel dcancel (length + 1) p.cnt fuelLen
      ⟨p.yielded ++ d.items, r.visited ++ d.visited, d.stopped, d.err⟩
    else
      ⟨p.yielded, r.visited, false, true⟩

/-- Model of `_find_secret(target, maximum_distance, stop_event,
interesting_hamming_distance)` (lines 121-134): starts at length 1. -/
def _find_secret (target : List Nat) (ideal : Nat) (interesting : Option Nat)
    (ecancel : Nat → Nat → Bool) (dcancel : Nat → Bool) (fuelLen : Nat) : DriverOut :=
  driverAux target ideal interesting ecancel dcancel 1 0 fuelLen

/-- Model of `HashFinder.Find` (lines 139-149): drains the driver (which it runs
with no interesting threshold), returns the last Match seen, or the
default `HashNameResponse()` when none was produced.  The value
modelled here is the one the source returns when `list(...)` completes
normally, i.e. when the driver run has `stopped = true`; on an `err`
run the source raises instead of returning, and on a fuel-truncated
run the source call has not yet returned. -/
def Find (target : List Nat) (ideal : Nat) (ecancel : Nat → Nat → Bool)
    (dcancel : Nat → Bool) (fuelLen : Nat) : HashNameResponse :=
  let candidates := (_find_secret target ideal none ecancel dcancel fuelLen).items
  match candidates.getLast? with
  | none => ⟨[], [], 0⟩
  | some m => m

/-! ## Basic lemmas: forcing is the identity, digest shape -/

theorem forceN_eq {α : Sort _} (n : Nat) (k : Nat → α) : forceN n k = k n := by
  cases n <;> rfl

theorem forceListN_eq {α : Sort _} (l : List Nat) (k : List Nat → α) :
    forceListN l k = k l := by
  induction l generalizing k with
  | nil => rfl
  | cons n rest ih => simp [forceListN, forceN_eq, ih]

/-- The SHA-1 digest always has 20 bytes. -/
theorem sha1_length (msg : List Nat) : (sha1 msg).length = 20 := by
  unfold sha1
  obtain ⟨h0, h1, h2, h3, h4⟩ :=
    sha1Blocks (1732584193, 4023233417, 2562383102, 271733878, 3285377520)
      (bytesToWords (sha1Pad msg))
  simp [wordBytes]

/-- The hash compared against the target always has 28 characters:
base64 of the 20-byte SHA-1 digest. -/
theorem _get_hash_length (secret : List Nat) : (_get_hash secret).length = 28 := by
  unfold _get_hash sha1
  obtain ⟨h0, h1, h2, h3, h4⟩ :=
    sha1Blocks (1732584193, 4023233417, 2562383102, 271733878, 3285377520)
      (bytesToWords (sha1Pad secret))
  simp [wordBytes, b64encode]

/-! ## Unfolding the enumerator loop -/

/-- One unfolding step of the enumerator loop, with the forcing
continuations eliminated. -/
theorem runAux_succ (target : List Nat) (ideal : Nat) (int : Option Nat)
    (cancel : Nat → Bool) (digits : List Nat) (k fuel : Nat) :
    runAux target ideal int cancel digits k (fuel + 1) =
      if cancel k then ⟨[none], [], .cancelled⟩
      else
        match _get_substring_hamming_distance (_get_hash digits) target with
        | none => ⟨[], [digits], .invalid⟩
        | some distance =>
          if interestingHit int distance then
            match increment digits with
            | .indexError =>
              ⟨[some ⟨b64encode digits, _get_hash digits, distance⟩], [digits], .indexErr⟩
            | .exhausted =>
              ⟨[some ⟨b64encode digits, _get_hash digits, distance⟩], [digits], .exhausted⟩
            | .next ds =>
              let r := runAux target ideal int cancel ds (k + 1) fuel
              ⟨some ⟨b64encode digits, _get_hash digits, distance⟩ :: r.items,
               digits :: r.visited, r.kind⟩
          else if distance ≤ ideal then
            ⟨[some ⟨b64encode digits, _get_hash digits, distance⟩, none], [digits], .found⟩
          else
            match increment digits with
            | .indexError => ⟨[], [digits], .indexErr⟩
            | .exhausted => ⟨[], [digits], .exhausted⟩
            | .next ds =>
              let r := runAux target ideal int cancel ds (k + 1) fuel
              ⟨r.items, digits :: r.visited, r.kind⟩ := by
  rw [runAux, forceListN_eq]

/-- The enumerator checks the flag first: a set flag yields only the
sentinel and stops. -/
theorem runAux_cancelled (target : List Nat) (ideal : Nat) (int : Option Nat)
    (cancel : Nat → Bool) (digits : List Nat) (k fuel : Nat)
    (hc : cancel k = true) :
    runAux target ideal int cancel digits k (fuel + 1) = ⟨[none], [], .cancelled⟩ := by
  rw [runAux_succ, hc]; rfl

/-- With the flag clear, an oracle failure aborts the run at the current
candidate: `AssertionError` propagation. -/
theorem runAux_invalid (target : List Nat) (ideal : Nat) (int : Option Nat)
    (cancel : Nat → Bool) (digits : List Nat) (k fuel : Nat)
    (hc : cancel k = false)
    (ho : _get_substring_hamming_distance (_get_hash digits) target = none) :
    runAux target ideal int cancel digits k (fuel + 1) = ⟨[], [digits], .invalid⟩ := by
  rw [runAux_succ, hc, ho]; rfl

/-- An interesting candidate is yielded and the loop advances the
counter (continue case). -/
theorem runAux_hit_next (target : List Nat) (ideal : Nat) (int : Option Nat)
    (cancel : Nat → Bool) (digits ds : List Nat) (k fuel d : Nat)
    (hc : cancel k = false)
    (ho : _get_substring_hamming_distance (_get_hash digits) target = some d)
    (hh : interestingHit int d = true)
    (hi : increment digits = .next ds) :
    runAux target ideal int cancel digits k (fuel + 1) =
      ⟨some ⟨b64encode digits, _get_hash digits, d⟩ ::
         (runAux target ideal int cancel ds (k + 1) fuel).items,
       digits :: (runAux target ideal int cancel ds (k + 1) fuel).visited,
       (runAux target ideal int cancel ds (k + 1) fuel).kind⟩ := by
  rw [runAux_succ, hc, ho]
  simp only [hh, if_true, hi, Bool.false_eq_true, if_false]

/-- An interesting candidate on the last counter value: yielded, then
the length is exhausted. -/
theorem runAux_hit_exhausted (target : List Nat) (ideal : Nat) (int : Option Nat)
    (cancel : Nat → Bool) (digits : List Nat) (k fuel d : Nat)
    (hc : cancel k = false)
    (ho : _get_substring_hamming_distance (_get_hash digits) target = some d)
    (hh : interestingHit int d = true)
    (hi : increment digits = .exhausted) :
    runAux target ideal int cancel digits k (fuel + 1) =
      ⟨[some ⟨b64encode digits, _get_hash digits, d⟩], [digits], .exhausted⟩ := by
  rw [runAux_succ, hc, ho]
  simp only [hh, if_true, hi, Bool.false_eq_true, if_false]

/-- A candidate at or below the ideal distance that the interesting
branch does not capture: Match, sentinel, stop. -/
theorem runAux_found (target : List Nat) (ideal : Nat) (int : Option Nat)
    (cancel : Nat → Bool) (digits : List Nat) (k fuel d : Nat)
    (hc : cancel k = false)
    (ho : _get_substring_hamming_distance (_get_hash digits) target = some d)
    (hh : interestingHit int d = false)
    (hd : d ≤ ideal) :
    runAux target ideal int cancel digits k (fuel + 1) =
      ⟨[some ⟨b64encode digits, _get_hash digits, d⟩, none], [digits], .found⟩ := by
  rw [runAux_succ, hc, ho]
  simp only [hh, Bool.false_eq_true, if_false, if_pos hd]

/-- A candidate above both thresholds: nothing yielded, counter advances. -/
theorem runAux_miss_next (target : List Nat) (ideal : Nat) (int : Option Nat)
    (cancel : Nat → Bool) (digits ds : List Nat) (k fuel d : Nat)
    (hc : cancel k = false)
    (ho : _get_substring_hamming_distance (_get_hash digits) target = some d)
    (hh : interestingHit int d = false)
    (hd : ¬ d ≤ ideal)
    (hi : increment digits = .next ds) :
    runAux target ideal int cancel digits k (fuel + 1) =
      ⟨(runAux target ideal int cancel ds (k + 1) fuel).items,
       digits :: (runAux target ideal int cancel ds (k + 1) fuel).visited,
       (runAux target ideal int cancel ds (k + 1) fuel).kind⟩ := by
  rw [runAux_succ, hc, ho]
  simp only [hh, Bool.false_eq_true, if_false, if_neg hd, hi]

/-- A candidate above both thresholds on the last counter value:
the length is exhausted with no sentinel. -/
theorem runAux_miss_exhausted (target : List Nat) (ideal : Nat) (int : Option Nat)
    (cancel : Nat → Bool) (digits : List Nat) (k fuel d : Nat)
    (hc : cancel k = false)
    (ho : _get_substring_hamming_distance (_get_hash digits) target = some d)
    (hh : interestingHit int d = false)
    (hd : ¬ d ≤ ideal)
    (hi : increment digits = .exhausted) :
    runAux target ideal int cancel digits k (fuel + 1) = ⟨[], [digits], .exhausted⟩ := by
  rw [runAux_succ, hc, ho]
  simp only [hh, Bool.false_eq_true, if_false, if_neg hd, hi]

/-! ## The counter as a base-256 big-endian number -/

/-- Base-256 digits of `v`, least significant first, padded/truncated
to `L` digits. -/
def digitsRevN : Nat → Nat → List Nat
  | 0, _ => []
  | L + 1, v => v % 256 :: digitsRevN L (v / 256)

/-- The big-endian digit vector of length `L` representing `v`. -/
def byteRepr (L v : Nat) : List Nat := (digitsRevN L v).reverse

theorem digitsRevN_length (L v : Nat) : (digitsRevN L v).length = L := by
  induction L generalizing v with
  | zero => rfl
  | succ L ih => simp [digitsRevN, ih]

theorem byteRepr_length (L v : Nat) : (byteRepr L v).length = L := by
  simp [byteRepr, digitsRevN_length]

theorem digitsRevN_zero (L : Nat) : digitsRevN L 0 = List.replicate L 0 := by
  induction L with
  | zero => rfl
  | succ L ih => simp [digitsRevN, List.replicate, ih]

theorem byteRepr_zero (L : Nat) : byteRepr L 0 = List.replicate L 0 := by
  simp [byteRepr, digitsRevN_zero, List.reverse_replicate]

/-- Carry propagation is exactly `+1` on the base-256 value, with
carry past the top digit exactly at `256^L - 1`. -/
theorem incrRev_digitsRevN (L v : Nat) (hv : v < 256 ^ L) :
    incrRev (digitsRevN L v) =
      if v + 1 < 256 ^ L then some (digitsRevN L (v + 1)) else none := by
  induction L generalizing v with
  | zero =>
    simp [digitsRevN, incrRev]
  | succ L ih =>
    have hp : (256 : Nat) ^ (L + 1) = 256 ^ L * 256 := by ring
    have hv' : v / 256 < 256 ^ L := by
      rw [Nat.div_lt_iff_lt_mul (by norm_num)]
      omega
    rw [digitsRevN, incrRev]
    by_cases h255 : v % 256 = 255
    · have hmod : v % 256 + 1 = 256 := by omega
      rw [if_pos hmod, ih (v / 256) hv']
      by_cases hlt : v / 256 + 1 < 256 ^ L
      · have hv1 : v + 1 < 256 ^ (L + 1) := by omega
        have hm : (v + 1) % 256 = 0 := by omega
        have hd : (v + 1) / 256 = v / 256 + 1 := by omega
        rw [if_pos hlt, if_pos hv1, digitsRevN, hm, hd]
        rfl
      · have hv1 : ¬ (v + 1 < 256 ^ (L + 1)) := by omega
        rw [if_neg hlt, if_neg hv1]
        rfl
    · have hmod : ¬ (v % 256 + 1 = 256) := by omega
      have hv1 : v + 1 < 256 ^ (L + 1) := by omega
      have hm : (v + 1) % 256 = v % 256 + 1 := by omega
      have hd : (v + 1) / 256 = v / 256 := by omega
      rw [if_neg hmod, if_pos hv1, digitsRevN, hm, hd]

/-- The source's counter-advance on the digit vector of `v` either
steps to the digit vector of `v + 1` or reports exhaustion at the top
value; for positive length it never raises `IndexError`. -/
theorem increment_byteRepr (L v : Nat) (hL : 1 ≤ L) (hv : v < 256 ^ L) :
    increment (byteRepr L v) =
      if v + 1 < 256 ^ L then .next (byteRepr L (v + 1)) else .exhausted := by
  have hne : byteRepr L v ≠ [] := by
    intro h
    have := byteRepr_length L v
    rw [h] at this
    simp at this
    omega
  obtain ⟨d, rest, hcons⟩ : ∃ d rest, byteRepr L v = d :: rest := by
    cases hbr : byteRepr L v with
    | nil => exact absurd hbr hne
    | cons d rest => exact ⟨d, rest, rfl⟩
  rw [hcons, increment, ← hcons]
  have hrev : (byteRepr L v).reverse = digitsRevN L v := by
    simp [byteRepr]
  rw [hrev, incrRev_digitsRevN L v hv]
  by_cases hlt : v + 1 < 256 ^ L
  · rw [if_pos hlt, if_pos hlt]
    rfl
  · rw [if_neg hlt, if_neg hlt]

/-! ## When the Distance Oracle succeeds -/

theorem minDistLoop_isSome_acc (l : List (Option Nat)) (h : ∀ x ∈ l, x.isSome) :
    ∀ m : Nat, (minDistLoop l (some m)).isSome := by
  induction l with
  | nil => intro m; rfl
  | cons x xs ih =>
    intro m
    obtain ⟨d, rfl⟩ : ∃ d, x = some d := by
      have := h x (List.mem_cons_self x xs)
      cases x with
      | none => simp at this
      | some d => exact ⟨d, rfl⟩
    simp only [minDistLoop, forceN_eq]
    exact ih (fun y hy => h y (List.mem_cons_of_mem _ hy)) _

theorem minDistLoop_isSome (l : List (Option Nat)) (h : ∀ x ∈ l, x.isSome)
    (hne : l ≠ []) : (minDistLoop l none).isSome := by
  cases l with
  | nil => exact absurd rfl hne
  | cons x xs =>
    obtain ⟨d, rfl⟩ : ∃ d, x = some d := by
      have := h x (List.mem_cons_self x xs)
      cases x with
      | none => simp at this
      | some d => exact ⟨d, rfl⟩
    simp only [minDistLoop, forceN_eq]
    exact minDistLoop_isSome_acc xs (fun y hy => h y (List.mem_cons_of_mem _ hy)) d

/-- Under its preconditions the substring-distance oracle returns a
value: every window has exactly the target's length. -/
theorem substring_isSome (candidate target : List Nat)
    (h1 : target.length ≤ candidate.length) (h2 : candidate.length ≠ 0) :
    (_get_substring_hamming_distance candidate target).isSome := by
  unfold _get_substring_hamming_distance
  rw [if_pos ⟨h1, h2⟩]
  apply minDistLoop_isSome
  · intro x hx
    obtain ⟨i, hi, rfl⟩ := List.mem_map.mp hx
    rw [List.mem_range] at hi
    have hlen : ((candidate.drop i).take target.length).length = target.length := by
      simp [List.length_take, List.length_drop]
      omega
    unfold _get_hamming_distance
    rw [if_pos hlen]
    rfl
  · intro hemp
    have := congrArg List.length hemp
    simp at this

/-- Against a 28-character hash, the oracle succeeds iff the target
fits in 28 characters (`_get_hash` output is never empty). -/
theorem hash_oracle_isSome (s target : List Nat) (h : target.length ≤ 28) :
    (_get_substring_hamming_distance (_get_hash s) target).isSome := by
  apply substring_isSome
  · rw [_get_hash_length]; exact h
  · rw [_get_hash_length]; omega

theorem hash_oracle_none (s target : List Nat) (h : 28 < target.length) :
    _get_substring_hamming_distance (_get_hash s) target = none := by
  unfold _get_substring_hamming_distance
  rw [if_neg]
  rintro ⟨h1, -⟩
  rw [_get_hash_length] at h1
  omega

/-! ## Reachability of the terminal kinds -/

/-- With a target of at most 28 characters the oracle never fails, so
no run ends in `invalid`. -/
theorem runAux_no_invalid (target : List Nat) (ideal : Nat) (int : Option Nat)
    (cancel : Nat → Bool) (h28 : target.length ≤ 28) :
    ∀ (fuel : Nat) (digits : List Nat) (k : Nat),
      (runAux target ideal int cancel digits k fuel).kind ≠ .invalid := by
  intro fuel
  induction fuel with
  | zero => intro digits k; rw [runAux]; simp
  | succ fuel ih =>
    intro digits k
    cases hc : cancel k with
    | true => rw [runAux_cancelled _ _ _ _ _ _ _ hc]; simp
    | false =>
      obtain ⟨d, ho⟩ := Option.isSome_iff_exists.mp (hash_oracle_isSome digits target h28)
      cases hh : interestingHit int d with
      | true =>
        cases hi : increment digits with
        | indexError =>
          rw [runAux_succ, hc]
          simp only [ho, hh, if_true, hi, Bool.false_eq_true, if_false]
          simp
        | exhausted => rw [runAux_hit_exhausted _ _ _ _ _ _ _ _ hc ho hh hi]; simp
        | next ds =>
          rw [runAux_hit_next _ _ _ _ _ _ _ _ _ hc ho hh hi]
          exact ih ds (k + 1)
      | false =>
        by_cases hd : d ≤ ideal
        · rw [runAux_found _ _ _ _ _ _ _ _ hc ho hh hd]; simp
        · cases hi : increment digits with
          | indexError =>
            rw [runAux_succ, hc]
            simp only [ho, hh, Bool.false_eq_true, if_false, if_neg hd, hi]
            simp
          | exhausted => rw [runAux_miss_exhausted _ _ _ _ _ _ _ _ hc ho hh hd hi]; simp
          | next ds =>
            rw [runAux_miss_next _ _ _ _ _ _ _ _ _ hc ho hh hd hi]
            exact ih ds (k + 1)

/-- With the fuel budget `_find_secret_of_length` supplies, a run from
counter value `v` never exhausts the model's fuel, and for positive
length the counter advance never raises `IndexError`. -/
theorem runAux_no_fuelOut (target : List Nat) (ideal : Nat) (int : Option Nat)
    (cancel : Nat → Bool) (L : Nat) (hL : 1 ≤ L) :
    ∀ (fuel v k : Nat), v < 256 ^ L → 256 ^ L - v ≤ fuel →
      (runAux target ideal int cancel (byteRepr L v) k fuel).kind ≠ .fuelOut ∧
      (runAux target ideal int cancel (byteRepr L v) k fuel).kind ≠ .indexErr := by
  intro fuel
  induction fuel with
  | zero => intro v k hv hf; omega
  | succ fuel ih =>
    intro v k hv hf
    cases hc : cancel k with
    | true => rw [runAux_cancelled _ _ _ _ _ _ _ hc]; simp
    | false =>
      cases ho : _get_substring_hamming_distance (_get_hash (byteRepr L v)) target with
      | none => rw [runAux_invalid _ _ _ _ _ _ _ hc ho]; simp
      | some d =>
        have hinc := increment_byteRepr L v hL hv
        cases hh : interestingHit int d with
        | true =>
          by_cases hvs : v + 1 < 256 ^ L
          · rw [if_pos hvs] at hinc
            rw [runAux_hit_next _ _ _ _ _ _ _ _ _ hc ho hh hinc]
            exact ih (v + 1) (k + 1) hvs (by omega)
          · rw [if_neg hvs] at hinc
            rw [runAux_hit_exhausted _ _ _ _ _ _ _ _ hc ho hh hinc]; simp
        | false =>
          by_cases hd : d ≤ ideal
          · rw [runAux_found _ _ _ _ _ _ _ _ hc ho hh hd]; simp
          · by_cases hvs : v + 1 < 256 ^ L
            · rw [if_pos hvs] at hinc
              rw [runAux_miss_next _ _ _ _ _ _ _ _ _ hc ho hh hd hinc]
              exact ih (v + 1) (k + 1) hvs (by omega)
            · rw [if_neg hvs] at hinc
              rw [runAux_miss_exhausted _ _ _ _ _ _ _ _ hc ho hh hd hinc]; simp

/-- The three spec-level terminal outcomes are the only ones a
well-formed call of the enumerator can produce when the target fits the
digest. -/
theorem findSecretOfLength_kinds (target : List Nat) (ideal L : Nat)
    (cancel : Nat → Bool) (int : Option Nat) (hL : 1 ≤ L) (h28 : target.length ≤ 28) :
    (_find_secret_of_length target ideal L cancel int).kind = .exhausted ∨
    (_find_secret_of_length target ideal L cancel int).kind = .cancelled ∨
    (_find_secret_of_length target ideal L cancel int).kind = .found := by
  have h1 := runAux_no_invalid target ideal int cancel h28 (256 ^ L) (List.replicate L 0) 0
  have hpos : 0 < 256 ^ L := by positivity
  have h2 := runAux_no_fuelOut target ideal int cancel L hL (256 ^ L) 0 0 hpos (by omega)
  rw [← byteRepr_zero] at h1
  unfold _find_secret_of_length
  rw [← byteRepr_zero]
  cases h : (runAux target ideal int cancel (byteRepr L 0) 0 (256 ^ L)).kind <;>
    simp_all

/-! ## Decoding the terminal condition from the yielded items -/

/-- Helper for `classify`, reading the reversed item sequence. -/
def classifyRev (int : Option Nat) : List (Option HashNameResponse) → TerminalKind
  | [] => .exhausted
  | some _ :: _ => .exhausted
  | none :: rest =>
    match rest with
    | some m :: _ =>
      match int with
      | none => .found
      | some t => if t < m.hamming_distance then .found else .cancelled
    | _ => .cancelled

/-- The consumer-side decoder: from the yielded items alone (plus the
thresholds it already knows), determine which terminal condition ended
the enumeration.  No trailing sentinel: exhausted.  A sentinel preceded
by a Match that the interesting branch cannot have produced (distance
above `interesting`, or no `interesting` configured): found.
Otherwise: cancelled. -/
def classify (int : Option Nat) (items : List (Option HashNameResponse)) : TerminalKind :=
  classifyRev int items.reverse

theorem interestingHit_true {int : Option Nat} {d : Nat}
    (h : interestingHit int d = true) : ∃ t, int = some t ∧ d ≤ t := by
  cases int with
  | none => simp [interestingHit] at h
  | some t => exact ⟨t, rfl, by simpa [interestingHit] using h⟩

theorem interestingHit_false {t d : Nat}
    (h : interestingHit (some t) d = false) : t < d := by
  simp [interestingHit] at h
  omega

/-- Prepending an interesting Match (distance ≤ the interesting
threshold) does not change what the decoder reads off the tail. -/
theorem classify_cons (t : Nat) (m : HashNameResponse)
    (xs : List (Option HashNameResponse)) (hm : m.hamming_distance ≤ t) :
    classify (some t) (some m :: xs) = classify (some t) xs := by
  unfold classify
  rw [List.reverse_cons]
  cases hxs : xs.reverse with
  | nil => rfl
  | cons a as =>
    rw [List.cons_append]
    cases a with
    | some m2 => rfl
    | none =>
      cases as with
      | nil =>
        show classifyRev (some t) (none :: [some m]) = classifyRev (some t) (none :: [])
        simp only [classifyRev]
        rw [if_neg (by omega)]
      | cons b bs =>
        cases b with
        | some m3 => rfl
        | none => rfl

/-- On every run that ends in one of the three contract outcomes, the
decoder recovers the outcome from the items alone. -/
theorem runAux_classify (target : List Nat) (ideal : Nat) (int : Option Nat)
    (cancel : Nat → Bool) :
    ∀ (fuel : Nat) (digits : List Nat) (k : Nat),
      (runAux target ideal int cancel digits k fuel).kind ≠ .fuelOut →
      (runAux target ideal int cancel digits k fuel).kind ≠ .invalid →
      (runAux target ideal int cancel digits k fuel).kind ≠ .indexErr →
      classify int (runAux target ideal int cancel digits k fuel).items =
        (runAux target ideal int cancel digits k fuel).kind := by
  intro fuel
  induction fuel with
  | zero => intro digits k h1 _ _; rw [runAux] at h1 ⊢; simp at h1
  | succ fuel ih =>
    intro digits k h1 h2 h3
    cases hc : cancel k with
    | true => rw [runAux_cancelled _ _ _ _ _ _ _ hc]; rfl
    | false =>
      cases ho : _get_substring_hamming_distance (_get_hash digits) target with
      | none => rw [runAux_invalid _ _ _ _ _ _ _ hc ho] at h2; simp at h2
      | some d =>
        cases hh : interestingHit int d with
        | true =>
          obtain ⟨t, rfl, hdt⟩ := interestingHit_true hh
          cases hi : increment digits with
          | indexError =>
            rw [runAux_succ, hc] at h3
            simp only [ho, hh, if_true, hi, Bool.false_eq_true, if_false] at h3
            simp at h3
          | exhausted =>
            rw [runAux_hit_exhausted _ _ _ _ _ _ _ _ hc ho hh hi]; rfl
          | next ds =>
            rw [runAux_hit_next _ _ _ _ _ _ _ _ _ hc ho hh hi] at h1 h2 h3 ⊢
            simp only at h1 h2 h3 ⊢
            rw [classify_cons t _ _ hdt]
            exact ih ds (k + 1) h1 h2 h3
        | false =>
          by_cases hd : d ≤ ideal
          · rw [runAux_found _ _ _ _ _ _ _ _ hc ho hh hd]
            cases int with
            | none => rfl
            | some t =>
              have := interestingHit_false hh
              show classifyRev (some t) ([some _, none].reverse) = _
              simp only [List.reverse_cons, List.reverse_nil, List.nil_append,
                List.cons_append, classifyRev]
              rw [if_pos (by simpa using this)]
          · cases hi : increment digits with
            | indexError =>
              rw [runAux_succ, hc] at h3
              simp only [ho, hh, Bool.false_eq_true, if_false, if_neg hd, hi] at h3
              simp at h3
            | exhausted =>
              rw [runAux_miss_exhausted _ _ _ _ _ _ _ _ hc ho hh hd hi]; rfl
            | next ds =>
              rw [runAux_miss_next _ _ _ _ _ _ _ _ _ hc ho hh hd hi] at h1 h2 h3 ⊢
              simp only at h1 h2 h3 ⊢
              exact ih ds (k + 1) h1 h2 h3

/-! ## The visited-candidate trace of an exhausted run -/

/-- A run from counter value `v` that ends `exhausted` evaluates
exactly the candidates `v, v+1, …, 256^L - 1`, in that order. -/
theorem runAux_exhausted_visited (target : List Nat) (ideal : Nat) (int : Option Nat)
    (cancel : Nat → Bool) (L : Nat) (hL : 1 ≤ L) :
    ∀ (fuel v k : Nat), v < 256 ^ L → 256 ^ L - v ≤ fuel →
      (runAux target ideal int cancel (byteRepr L v) k fuel).kind = .exhausted →
      (runAux target ideal int cancel (byteRepr L v) k fuel).visited
        = (List.range' v (256 ^ L - v)).map (byteRepr L) := by
  intro fuel
  induction fuel with
  | zero => intro v k hv hf; omega
  | succ fuel ih =>
    intro v k hv hf hk
    cases hc : cancel k with
    | true => rw [runAux_cancelled _ _ _ _ _ _ _ hc] at hk; simp at hk
    | false =>
      cases ho : _get_substring_hamming_distance (_get_hash (byteRepr L v)) target with
      | none => rw [runAux_invalid _ _ _ _ _ _ _ hc ho] at hk; simp at hk
      | some d =>
        have hinc := increment_byteRepr L v hL hv
        have hone : ¬ (v + 1 < 256 ^ L) → 256 ^ L - v = 1 := by omega
        have hsplit : v + 1 < 256 ^ L → 256 ^ L - v = (256 ^ L - (v + 1)) + 1 := by omega
        cases hh : interestingHit int d with
        | true =>
          by_cases hvs : v + 1 < 256 ^ L
          · rw [if_pos hvs] at hinc
            rw [runAux_hit_next _ _ _ _ _ _ _ _ _ hc ho hh hinc] at hk ⊢
            simp only at hk ⊢
            rw [ih (v + 1) (k + 1) hvs (by omega) hk, hsplit hvs]
            simp [List.range']
          · rw [if_neg hvs] at hinc
            rw [runAux_hit_exhausted _ _ _ _ _ _ _ _ hc ho hh hinc]
            rw [hone hvs]
            simp [List.range']
        | false =>
          by_cases hd : d ≤ ideal
          · rw [runAux_found _ _ _ _ _ _ _ _ hc ho hh hd] at hk; simp at hk
          · by_cases hvs : v + 1 < 256 ^ L
            · rw [if_pos hvs] at hinc
              rw [runAux_miss_next _ _ _ _ _ _ _ _ _ hc ho hh hd hinc] at hk ⊢
              simp only at hk ⊢
              rw [ih (v + 1) (k + 1) hvs (by omega) hk, hsplit hvs]
              simp [List.range']
            · rw [if_neg hvs] at hinc
              rw [runAux_miss_exhausted _ _ _ _ _ _ _ _ hc ho hh hd hinc]
              rw [hone hvs]
              simp [List.range']

/-! ## Facts about the yielded items -/

/-- An exhausted run never yields the sentinel. -/
theorem runAux_exhausted_no_none (target : List Nat) (ideal : Nat) (int : Option Nat)
    (cancel : Nat → Bool) :
    ∀ (fuel : Nat) (digits : List Nat) (k : Nat),
      (runAux target ideal int cancel digits k fuel).kind = .exhausted →
      ∀ x ∈ (runAux target ideal int cancel digits k fuel).items, x.isSome := by
  intro fuel
  induction fuel with
  | zero => intro digits k hk; rw [runAux] at hk; simp at hk
  | succ fuel ih =>
    intro digits k hk
    cases hc : cancel k with
    | true => rw [runAux_cancelled _ _ _ _ _ _ _ hc] at hk; simp at hk
    | false =>
      cases ho : _get_substring_hamming_distance (_get_hash digits) target with
      | none => rw [runAux_invalid _ _ _ _ _ _ _ hc ho] at hk; simp at hk
      | some d =>
        cases hh : interestingHit int d with
        | true =>
          cases hi : increment digits with
          | indexError =>
            rw [runAux_succ, hc] at hk
            simp only [ho, hh, if_true, hi, Bool.false_eq_true, if_false] at hk
            simp at hk
          | exhausted =>
            rw [runAux_hit_exhausted _ _ _ _ _ _ _ _ hc ho hh hi]
            simp
          | next ds =>
            rw [runAux_hit_next _ _ _ _ _ _ _ _ _ hc ho hh hi] at hk ⊢
            simp only at hk ⊢
            intro x hx
            rcases List.mem_cons.mp hx with rfl | hx
            · rfl
            · exact ih ds (k + 1) hk x hx
        | false =>
          by_cases hd : d ≤ ideal
          · rw [runAux_found _ _ _ _ _ _ _ _ hc ho hh hd] at hk; simp at hk
          · cases hi : increment digits with
            | indexError =>
              rw [runAux_succ, hc] at hk
              simp only [ho, hh, Bool.false_eq_true, if_false, if_neg hd, hi] at hk
              simp at hk
            | exhausted =>
              rw [runAux_miss_exhausted _ _ _ _ _ _ _ _ hc ho hh hd hi]
              simp
            | next ds =>
              rw [runAux_miss_next _ _ _ _ _ _ _ _ _ hc ho hh hd hi] at hk ⊢
              simp only at hk ⊢
              exact ih ds (k + 1) hk

/-- Every Match a run yields carries the 28-character hash of its
secret, and if no interesting threshold is configured its distance is
at or below the ideal threshold. -/
theorem runAux_items_facts (target : List Nat) (ideal : Nat) (int : Option Nat)
    (cancel : Nat → Bool) :
    ∀ (fuel : Nat) (digits : List Nat) (k : Nat) (m : HashNameResponse),
      some m ∈ (runAux target ideal int cancel digits k fuel).items →
      m.hashed_name.length = 28 ∧ (int = none → m.hamming_distance ≤ ideal) := by
  intro fuel
  induction fuel with
  | zero => intro digits k m hm; rw [runAux] at hm; simp at hm
  | succ fuel ih =>
    intro digits k m hm
    cases hc : cancel k with
    | true => rw [runAux_cancelled _ _ _ _ _ _ _ hc] at hm; simp at hm
    | false =>
      cases ho : _get_substring_hamming_distance (_get_hash digits) target with
      | none => rw [runAux_invalid _ _ _ _ _ _ _ hc ho] at hm; simp at hm
      | some d =>
        cases hh : interestingHit int d with
        | true =>
          have hint : int ≠ none := by
            intro habs
            obtain ⟨u, hu, -⟩ := interestingHit_true hh
            rw [habs] at hu
            cases hu
          cases hi : increment digits with
          | indexError =>
            rw [runAux_succ, hc] at hm
            simp only [ho, hh, if_true, hi, Bool.false_eq_true, if_false] at hm
            simp at hm
            rw [hm]
            exact ⟨_get_hash_length digits, fun habs => absurd habs hint⟩
          | exhausted =>
            rw [runAux_hit_exhausted _ _ _ _ _ _ _ _ hc ho hh hi] at hm
            simp at hm
            rw [hm]
            exact ⟨_get_hash_length digits, fun habs => absurd habs hint⟩
          | next ds =>
            rw [runAux_hit_next _ _ _ _ _ _ _ _ _ hc ho hh hi] at hm
            simp only [List.mem_cons] at hm
            rcases hm with hm | hm
            · rw [Option.some_inj.mp hm]
              exact ⟨_get_hash_length digits, fun habs => absurd habs hint⟩
            · exact ih ds (k + 1) m hm
        | false =>
          by_cases hd : d ≤ ideal
          · rw [runAux_found _ _ _ _ _ _ _ _ hc ho hh hd] at hm
            simp at hm
            rw [hm]
            exact ⟨_get_hash_length digits, fun _ => hd⟩
          · cases hi : increment digits with
            | indexError =>
              rw [runAux_succ, hc] at hm
              simp only [ho, hh, Bool.false_eq_true, if_false, if_neg hd, hi] at hm
              simp at hm
            | exhausted =>
              rw [runAux_miss_exhausted _ _ _ _ _ _ _ _ hc ho hh hd hi] at hm
              simp at hm
            | next ds =>
              rw [runAux_miss_next _ _ _ _ _ _ _ _ _ hc ho hh hd hi] at hm
              simp only at hm
              exact ih ds (k + 1) m hm

/-! ## Cancellation promptness -/

/-- A monotone (latch-like) flag: once a read returns true, all later
reads do. -/
def MonotoneFlag (cancel : Nat → Bool) : Prop :=
  ∀ i j, i ≤ j → cancel i = true → cancel j = true

/-- The flag is read before each candidate: if read `k0 + j` returns
true, a run whose reads start at `k0` evaluates at most `j`
candidates. -/
theorem runAux_visited_cancel (target : List Nat) (ideal : Nat) (int : Option Nat)
    (cancel : Nat → Bool) :
    ∀ (fuel : Nat) (digits : List Nat) (k0 j : Nat), cancel (k0 + j) = true →
      (runAux target ideal int cancel digits k0 fuel).visited.length ≤ j := by
  intro fuel
  induction fuel with
  | zero => intro digits k0 j _; rw [runAux]; simp
  | succ fuel ih =>
    intro digits k0 j hj
    cases hc : cancel k0 with
    | true => rw [runAux_cancelled _ _ _ _ _ _ _ hc]; simp
    | false =>
      have hj1 : 1 ≤ j := by
        rcases Nat.eq_zero_or_pos j with rfl | h
        · rw [Nat.add_zero] at hj; rw [hj] at hc; cases hc
        · exact h
      cases ho : _get_substring_hamming_distance (_get_hash digits) target with
      | none => rw [runAux_invalid _ _ _ _ _ _ _ hc ho]; simpa using hj1
      | some d =>
        have hnext : ∀ ds, cancel (k0 + 1 + (j - 1)) = true →
            (runAux target ideal int cancel ds (k0 + 1) fuel).visited.length ≤ j - 1 :=
          fun ds h => ih ds (k0 + 1) (j - 1) h
        have hsh : cancel (k0 + 1 + (j - 1)) = true := by
          have : k0 + 1 + (j - 1) = k0 + j := by omega
          rw [this]; exact hj
        cases hh : interestingHit int d with
        | true =>
          cases hi : increment digits with
          | indexError =>
            rw [runAux_succ, hc]
            simp only [ho, hh, if_true, hi, Bool.false_eq_true, if_false]
            simpa using hj1
          | exhausted =>
            rw [runAux_hit_exhausted _ _ _ _ _ _ _ _ hc ho hh hi]
            simpa using hj1
          | next ds =>
            rw [runAux_hit_next _ _ _ _ _ _ _ _ _ hc ho hh hi]
            simp only [List.length_cons]
            have := hnext ds hsh
            omega
        | false =>
          by_cases hd : d ≤ ideal
          · rw [runAux_found _ _ _ _ _ _ _ _ hc ho hh hd]
            simpa using hj1
          · cases hi : increment digits with
            | indexError =>
              rw [runAux_succ, hc]
              simp only [ho, hh, Bool.false_eq_true, if_false, if_neg hd, hi]
              simpa using hj1
            | exhausted =>
              rw [runAux_miss_exhausted _ _ _ _ _ _ _ _ hc ho hh hd hi]
              simpa using hj1
            | next ds =>
              rw [runAux_miss_next _ _ _ _ _ _ _ _ _ hc ho hh hd hi]
              simp only [List.length_cons]
              have := hnext ds hsh
              omega

/-! ## Driver-level lemmas -/

/-- With the driver's own flag reads all false, the per-length loop
stops early exactly when the enumerator yielded a sentinel. -/
theorem processItems_no_none (l : List (Option HashNameResponse)) (c : Nat)
    (h : ∀ x ∈ l, x.isSome) :
    (processItems (fun _ => false) l c).stopped = false := by
  induction l generalizing c with
  | nil => rfl
  | cons x xs ih =>
    cases x with
    | none => have := h none (List.mem_cons_self _ _); simp at this
    | some m =>
      simp only [processItems, Bool.false_eq_true, if_false]
      exact ih (c + 1) (fun y hy => h y (List.mem_cons_of_mem _ hy))

/-- Every Match the per-length loop forwards came from the enumerator's
items. -/
theorem processItems_mem (dcancel : Nat → Bool) (l : List (Option HashNameResponse)) :
    ∀ (c : Nat) (m : HashNameResponse),
      m ∈ (processItems dcancel l c).yielded → some m ∈ l := by
  induction l with
  | nil => intro c m hm; simp [processItems] at hm
  | cons x xs ih =>
    intro c m hm
    cases x with
    | none =>
      simp only [processItems] at hm
      simp at hm
    | some m2 =>
      simp only [processItems] at hm
      by_cases hdc : dcancel c
      · rw [if_pos hdc] at hm
        simp at hm
        rw [hm]
        exact List.mem_cons_self _ _
      · rw [if_neg hdc] at hm
        simp only [List.mem_cons] at hm
        rcases hm with rfl | hm
        · exact List.mem_cons_self _ _
        · exact List.mem_cons_of_mem _ (ih (c + 1) m hm)

/-- Every Match the driver emits came from one of its per-length
enumerator rounds. -/
theorem driverAux_mem (target : List Nat) (ideal : Nat) (int : Option Nat)
    (ecancel : Nat → Nat → Bool) (dcancel : Nat → Bool) :
    ∀ (fuelLen L0 c : Nat) (m : HashNameResponse),
      m ∈ (driverAux target ideal int ecancel dcancel L0 c fuelLen).items →
      ∃ L, some m ∈ (_find_secret_of_length target ideal L (ecancel L) int).items := by
  intro fuelLen
  induction fuelLen with
  | zero => intro L0 c m hm; simp [driverAux] at hm
  | succ fuelLen ih =>
    intro L0 c m hm
    rw [driverAux] at hm
    by_cases hstop : (processItems dcancel
        (_find_secret_of_length target ideal L0 (ecancel L0) int).items c).stopped
    · rw [if_pos hstop] at hm
      exact ⟨L0, processItems_mem _ _ _ _ hm⟩
    · rw [if_neg hstop] at hm
      by_cases hex : (_find_secret_of_length target ideal L0 (ecancel L0) int).kind
          = TerminalKind.exhausted
      · rw [if_pos hex] at hm
        simp only [List.mem_append] at hm
        rcases hm with hm | hm
        · exact ⟨L0, processItems_mem _ _ _ _ hm⟩
        · exact ih _ _ m hm
      · rw [if_neg hex] at hm
        exact ⟨L0, processItems_mem _ _ _ _ hm⟩

/-- Without cancellation, while every length exhausts, the driver
concatenates the per-length traces in length order and keeps going. -/
theorem driverAux_no_cancel (target : List Nat) (ideal : Nat) (int : Option Nat) :
    ∀ (n L0 c : Nat),
      (∀ L, L0 ≤ L → L < L0 + n →
        (_find_secret_of_length target ideal L (fun _ => false) int).kind = .exhausted) →
      (driverAux target ideal int (fun _ _ => false) (fun _ => false) L0 c n).visited
        = (List.range' L0 n).flatMap
            (fun L => (_find_secret_of_length target ideal L (fun _ => false) int).visited)
      ∧ (driverAux target ideal int (fun _ _ => false) (fun _ => false) L0 c n).stopped
          = false := by
  intro n
  induction n with
  | zero => intro L0 c _; simp [driverAux]
  | succ n ih =>
    intro L0 c h
    have hex : (_find_secret_of_length target ideal L0 (fun _ => false) int).kind
        = .exhausted := h L0 (Nat.le_refl L0) (by omega)
    have hsome : ∀ x ∈ (_find_secret_of_length target ideal L0 (fun _ => false) int).items,
        x.isSome := by
      unfold _find_secret_of_length at hex ⊢
      exact runAux_exhausted_no_none target ideal int (fun _ => false) _ _ _ hex
    have hstop := processItems_no_none _ c hsome
    rw [driverAux]
    rw [hstop]
    simp only [Bool.false_eq_true, if_false, hex, if_true]
    have ihr := ih (L0 + 1) (processItems (fun _ => false)
      (_find_secret_of_length target ideal L0 (fun _ => false) int).items c).cnt
      (fun L hL1 hL2 => h L (by omega) (by omega))
    constructor
    · simp only [ihr.1]
      rw [List.range'_succ, List.flatMap_cons]
    · exact ihr.2

/-! ## The running minimum computes the minimum -/

theorem minDistLoop_spec : ∀ (l : List (Option Nat)) (m : Nat),
    (∀ x ∈ l, x.isSome) →
    ∃ r, minDistLoop l (some m) = some r ∧ r ≤ m ∧
      (∀ d, some d ∈ l → r ≤ d) ∧ (r = m ∨ some r ∈ l) := by
  intro l
  induction l with
  | nil =>
    intro m _
    exact ⟨m, rfl, Nat.le_refl m, by simp, Or.inl rfl⟩
  | cons x xs ih =>
    intro m h
    obtain ⟨d, rfl⟩ : ∃ d, x = some d := by
      have := h x (List.mem_cons_self x xs)
      cases x with
      | none => simp at this
      | some d => exact ⟨d, rfl⟩
    simp only [minDistLoop, forceN_eq]
    obtain ⟨r, heq, hrm, hlb, hor⟩ :=
      ih (if d < m then d else m) (fun y hy => h y (List.mem_cons_of_mem _ hy))
    refine ⟨r, heq, ?_, ?_, ?_⟩
    · by_cases hdm : d < m <;> simp [hdm] at hrm <;> omega
    · intro d0 hd0
      rcases List.mem_cons.mp hd0 with hd0 | hd0
      · have hdd : d0 = d := by injection hd0
        by_cases hdm : d < m
        · rw [if_pos hdm] at hrm; omega
        · rw [if_neg hdm] at hrm; omega
      · exact hlb d0 hd0
    · rcases hor with hor | hor
      · by_cases hdm : d < m
        · rw [if_pos hdm] at hor
          refine Or.inr ?_
          rw [hor]
          exact List.mem_cons_self _ _
        · rw [if_neg hdm] at hor
          exact Or.inl hor
      · exact Or.inr (List.mem_cons_of_mem _ hor)

theorem minDistLoop_none_spec (l : List (Option Nat)) (h : ∀ x ∈ l, x.isSome)
    (hne : l ≠ []) :
    ∃ r, minDistLoop l none = some r ∧ (∀ d, some d ∈ l → r ≤ d) ∧ some r ∈ l := by
  cases l with
  | nil => exact absurd rfl hne
  | cons x xs =>
    obtain ⟨d, rfl⟩ : ∃ d, x = some d := by
      have := h x (List.mem_cons_self x xs)
      cases x with
      | none => simp at this
      | some d => exact ⟨d, rfl⟩
    simp only [minDistLoop, forceN_eq]
    obtain ⟨r, heq, hrm, hlb, hor⟩ :=
      minDistLoop_spec xs d (fun y hy => h y (List.mem_cons_of_mem _ hy))
    refine ⟨r, heq, ?_, ?_⟩
    · intro d0 hd0
      rcases List.mem_cons.mp hd0 with hd0 | hd0
      · have : d0 = d := by injection hd0
        omega
      · exact hlb d0 hd0
    · rcases hor with rfl | hor
      · exact List.mem_cons_self _ _
      · exact List.mem_cons_of_mem _ hor

/-! ## A concrete exhausted run
No base64 character lowercases to `!` (byte 33), so against the target
`"!"` every window of every hash has distance exactly 1 > 0, every
candidate misses, and the run exhausts its length.  This is proven
structurally, with no per-candidate evaluation. -/

theorem b64char_lower_ne (i : Nat) : lowerByte (b64char i) ≠ 33 := by
  unfold b64char lowerByte
  split_ifs <;> omega

theorem b64encode_lower_ne (bs : List Nat) : ∀ x ∈ b64encode bs, lowerByte x ≠ 33 := by
  induction bs using b64encode.induct with
  | case1 b0 b1 b2 rest ih =>
    intro x hx
    simp only [b64encode, List.mem_cons] at hx
    rcases hx with rfl | rfl | rfl | rfl | hx
    · exact b64char_lower_ne _
    · exact b64char_lower_ne _
    · exact b64char_lower_ne _
    · exact b64char_lower_ne _
    · exact ih x hx
  | case2 b0 b1 =>
    intro x hx
    simp only [b64encode, List.mem_cons] at hx
    rcases hx with rfl | rfl | rfl | rfl | hx
    · exact b64char_lower_ne _
    · exact b64char_lower_ne _
    · exact b64char_lower_ne _
    · decide
    · simp at hx
  | case3 b0 =>
    intro x hx
    simp only [b64encode, List.mem_cons] at hx
    rcases hx with rfl | rfl | rfl | rfl | hx
    · exact b64char_lower_ne _
    · exact b64char_lower_ne _
    · decide
    · decide
    · simp at hx
  | case4 =>
    intro x hx
    simp [b64encode] at hx

/-- Against the one-character target `"!"`, the distance of any hash is
exactly 1: every window is a single base64 character, and none of them
lowercases to `!`. -/
theorem substring_hash_33 (s : List Nat) :
    _get_substring_hamming_distance (_get_hash s) [33] = some 1 := by
  have hchars : ∀ x ∈ _get_hash s, lowerByte x ≠ 33 := by
    intro x hx
    unfold _get_hash at hx
    exact b64encode_lower_ne (sha1 s) x hx
  have hlen := _get_hash_length s
  have hwin : ∀ i, i < (_get_hash s).length - ([33] : List Nat).length + 1 →
      _get_hamming_distance (((_get_hash s).drop i).take ([33] : List Nat).length) [33]
        = some 1 := by
    intro i hi
    have hsl : (((_get_hash s).drop i).take 1).length = 1 := by
      simp only [List.length_take, List.length_drop]
      simp only [List.length_cons, List.length_nil] at hi
      omega
    obtain ⟨c, hc⟩ : ∃ c, ((_get_hash s).drop i).take 1 = [c] := by
      cases hsl2 : ((_get_hash s).drop i).take 1 with
      | nil => rw [hsl2] at hsl; simp at hsl
      | cons c rest =>
        rw [hsl2] at hsl
        simp at hsl
        exact ⟨c, by rw [hsl]⟩
    have hcmem : c ∈ _get_hash s := by
      have h1 : c ∈ ((_get_hash s).drop i).take 1 := by rw [hc]; exact List.mem_cons_self _ _
      exact List.drop_subset i _ (List.take_subset _ _ h1)
    show _get_hamming_distance (((_get_hash s).drop i).take 1) [33] = some 1
    rw [hc]
    unfold _get_hamming_distance
    rw [if_pos (by simp)]
    have hne : (lowerByte c != lowerByte 33) = true := by
      have h33 : lowerByte 33 = 33 := by decide
      rw [h33, bne_iff_ne]
      exact hchars c hcmem
    simp [List.zip, List.zipWith, List.countP, List.countP.go, hne]
  unfold _get_substring_hamming_distance
  rw [if_pos ⟨by rw [hlen]; decide, by rw [hlen]; decide⟩]
  obtain ⟨r, heq, -, hmem⟩ := minDistLoop_none_spec
    ((List.range ((_get_hash s).length - ([33] : List Nat).length + 1)).map
      fun i => _get_hamming_distance (((_get_hash s).drop i).take ([33] : List Nat).length) [33])
    (by
      intro x hx
      obtain ⟨i, hi, rfl⟩ := List.mem_map.mp hx
      rw [List.mem_range] at hi
      rw [hwin i hi]
      rfl)
    (by
      intro hemp
      have := congrArg List.length hemp
      simp at this)
  obtain ⟨i, hi, hfi⟩ := List.mem_map.mp hmem
  rw [List.mem_range] at hi
  rw [hwin i hi] at hfi
  have hr1 : r = 1 := by
    have h1r : (1 : Nat) = r := by injection hfi
    omega
  rw [heq, hr1]

/-- A run in which every candidate of the length misses both thresholds
ends `exhausted`. -/
theorem runAux_all_miss_exhausted (target : List Nat) (ideal L : Nat)
    (int : Option Nat) (hL : 1 ≤ L)
    (h : ∀ w, w < 256 ^ L →
      ∃ d, _get_substring_hamming_distance (_get_hash (byteRepr L w)) target = some d ∧
        interestingHit int d = false ∧ ¬ d ≤ ideal) :
    ∀ (fuel v k : Nat), v < 256 ^ L → 256 ^ L - v ≤ fuel →
      (runAux target ideal int (fun _ => false) (byteRepr L v) k fuel).kind
        = .exhausted := by
  intro fuel
  induction fuel with
  | zero => intro v k hv hf; omega
  | succ fuel ih =>
    intro v k hv hf
    obtain ⟨d, ho, hh, hd⟩ := h v hv
    have hinc := increment_byteRepr L v hL hv
    by_cases hvs : v + 1 < 256 ^ L
    · rw [if_pos hvs] at hinc
      rw [runAux_miss_next _ _ _ _ _ _ _ _ _ rfl ho hh hd hinc]
      exact ih (v + 1) (k + 1) hvs (by omega)
    · rw [if_neg hvs] at hinc
      rw [runAux_miss_exhausted _ _ _ _ _ _ _ _ rfl ho hh hd hinc]

theorem run33_kind :
    (_find_secret_of_length [33] 0 1 (fun _ => false) none).kind
      = TerminalKind.exhausted := by
  unfold _find_secret_of_length
  rw [← byteRepr_zero]
  exact runAux_all_miss_exhausted [33] 0 1 none (by omega)
    (fun w _ => ⟨1, substring_hash_33 _, rfl, by omega⟩)
    (256 ^ 1) 0 0 (by positivity) (by simp)

/-! ## Claim theorems -/

/-- The enumerator's visited trace for an exhausted run, packaged at
the `_find_secret_of_length` level (shared by the C5 and C6 proofs). -/
theorem fsl_exhausted_visited (target : List Nat) (ideal L : Nat)
    (cancel : Nat → Bool) (int : Option Nat) (hL : 1 ≤ L)
    (hex : (_find_secret_of_length target ideal L cancel int).kind = .exhausted) :
    (_find_secret_of_length target ideal L cancel int).visited
      = (List.range (256 ^ L)).map (byteRepr L) := by
  unfold _find_secret_of_length at hex ⊢
  rw [← byteRepr_zero] at hex ⊢
  have h := runAux_exhausted_visited target ideal int cancel L hL (256 ^ L) 0 0
    (by positivity) (by simp) hex
  rw [h, Nat.sub_zero, List.range_eq_range']

/-- C8: under the oracle's preconditions, `minSubstringHammingDistance`
returns exactly the minimum over all `len(candidate) - len(target) + 1`
window offsets of the case-insensitive Hamming distance between
`candidate[i : i+len(target)]` and `target`: it is a lower bound on
every window's distance and is attained at some window. -/
theorem C8_substring_min (candidate target : List Nat)
    (h1 : 0 < candidate.length) (h2 : target.length ≤ candidate.length) :
    ∃ r, _get_substring_hamming_distance candidate target = some r ∧
      (∀ i, i < candidate.length - target.length + 1 →
        ∃ di, _get_hamming_distance ((candidate.drop i).take target.length) target
            = some di ∧ r ≤ di) ∧
      (∃ i, i < candidate.length - target.length + 1 ∧
        _get_hamming_distance ((candidate.drop i).take target.length) target
          = some r) := by
  have hwin : ∀ i, i < candidate.length - target.length + 1 →
      ∃ di, _get_hamming_distance ((candidate.drop i).take target.length) target
        = some di := by
    intro i hi
    have hlen : ((candidate.drop i).take target.length).length = target.length := by
      simp [List.length_take, List.length_drop]
      omega
    unfold _get_hamming_distance
    rw [if_pos hlen]
    exact ⟨_, rfl⟩
  unfold _get_substring_hamming_distance
  rw [if_pos ⟨h2, by omega⟩]
  obtain ⟨r, heq, hlb, hmem⟩ := minDistLoop_none_spec
    ((List.range (candidate.length - target.length + 1)).map
      fun i => _get_hamming_distance ((candidate.drop i).take target.length) target)
    (by
      intro x hx
      obtain ⟨i, hi, rfl⟩ := List.mem_map.mp hx
      rw [List.mem_range] at hi
      obtain ⟨di, hdi⟩ := hwin i hi
      rw [hdi]
      rfl)
    (by
      intro hemp
      have := congrArg List.length hemp
      simp at this)
  refine ⟨r, heq, ?_, ?_⟩
  · intro i hi
    obtain ⟨di, hdi⟩ := hwin i hi
    refine ⟨di, hdi, hlb di ?_⟩
    rw [← hdi]
    exact List.mem_map.mpr ⟨i, List.mem_range.mpr hi, rfl⟩
  · obtain ⟨i, hi, hfi⟩ := List.mem_map.mp hmem
    exact ⟨i, List.mem_range.mp hi, hfi⟩

/-- C9 (implicit): the string compared against the target is the
base64-encoded SHA-1 digest of the candidate, always 28 characters, so
the Distance Oracle's `InvalidInput` branch is unreachable whenever
`len(target) ≤ 28` — independently of whether `L ≥ len(target)` — and
when `len(target) > 28` the very first candidate (the all-zero vector)
fails with `InvalidInput` before yielding anything. -/
theorem C9_digest_shape (s target : List Nat) (ideal L : Nat)
    (cancel : Nat → Bool) (int : Option Nat) (_hL : 1 ≤ L) :
    _get_hash s = b64encode (sha1 s) ∧
    (_get_hash s).length = 28 ∧
    (target.length ≤ 28 →
      (_find_secret_of_length target ideal L cancel int).kind ≠ .invalid) ∧
    (28 < target.length → cancel 0 = false →
      _find_secret_of_length target ideal L cancel int
        = ⟨[], [List.replicate L 0], .invalid⟩) := by
  refine ⟨rfl, _get_hash_length s, ?_, ?_⟩
  · intro h28
    unfold _find_secret_of_length
    exact runAux_no_invalid target ideal int cancel h28 _ _ _
  · intro h28 hc
    unfold _find_secret_of_length
    have hfuel : 256 ^ L = (256 ^ L - 1) + 1 := by
      have : 0 < 256 ^ L := by positivity
      omega
    rw [hfuel]
    exact runAux_invalid _ _ _ _ _ _ _ hc (hash_oracle_none _ _ h28)

/-- C3 corrected: `L < len(target)` does not in itself make the
Distance Oracle fail — the oracle is applied to the 28-character hash,
not the candidate — so `InvalidInput` occurs exactly when
`len(target) > 28`, regardless of how `L` compares to `len(target)`. -/
theorem C3_oracle_independent_of_length (target : List Nat) (ideal L : Nat)
    (cancel : Nat → Bool) (int : Option Nat) :
    (L < target.length → target.length ≤ 28 →
      (_find_secret_of_length target ideal L cancel int).kind ≠ .invalid) ∧
    (target.length ≤ L → 28 < target.length → cancel 0 = false →
      (_find_secret_of_length target ideal L cancel int).kind = .invalid) := by
  constructor
  · intro _ h28
    unfold _find_secret_of_length
    exact runAux_no_invalid target ideal int cancel h28 _ _ _
  · intro _ h28 hc
    unfold _find_secret_of_length
    have hfuel : 256 ^ L = (256 ^ L - 1) + 1 := by
      have : 0 < 256 ^ L := by positivity
      omega
    rw [hfuel, runAux_invalid _ _ _ _ _ _ _ hc (hash_oracle_none _ _ h28)]

/-- C3 counterexample: with target `"AA"` (length 2) and `L = 1 < 2`
the enumerator does not fail with `InvalidInput`: the very first
candidate's hash is within distance 2 of the target and the run ends
`found`. -/
theorem C3_counterexample :
    1 < ([65, 65] : List Nat).length ∧
    (_find_secret_of_length [65, 65] 2 1 (fun _ => false) none).kind
      = TerminalKind.found := by
  exact ⟨by decide, by rfl⟩

/-- C4: the flag is read before each candidate evaluation.  A flag
already set at the first read yields only the sentinel — zero Matches,
`cancelled`, no candidate evaluated — and in general a flag set by read
`k` bounds the number of evaluated candidates by `k`. -/
theorem C4_cancellation_promptness (target : List Nat) (ideal L : Nat)
    (cancel : Nat → Bool) (int : Option Nat) (_hmono : MonotoneFlag cancel) :
    (cancel 0 = true →
      _find_secret_of_length target ideal L cancel int = ⟨[none], [], .cancelled⟩) ∧
    (∀ k, cancel k = true →
      (_find_secret_of_length target ideal L cancel int).visited.length ≤ k) := by
  constructor
  · intro hc
    unfold _find_secret_of_length
    have hfuel : 256 ^ L = (256 ^ L - 1) + 1 := by
      have : 0 < 256 ^ L := by positivity
      omega
    rw [hfuel]
    exact runAux_cancelled _ _ _ _ _ _ _ hc
  · intro k hk
    unfold _find_secret_of_length
    have := runAux_visited_cancel target ideal int cancel (256 ^ L)
      (List.replicate L 0) 0 k (by rw [Nat.zero_add]; exact hk)
    exact this

/-- C5: a run of length `L ≥ 1` that ends `exhausted` (no cancellation
observed, no ideal match) evaluates exactly the candidates
`byteRepr L 0, byteRepr L 1, …, byteRepr L (256^L - 1)`: every byte
string of length `L` exactly once, in strict ascending base-256
big-endian order, starting from the all-zero vector, none revisited. -/
theorem C5_ordering (target : List Nat) (ideal L : Nat) (cancel : Nat → Bool)
    (int : Option Nat) (hL : 1 ≤ L)
    (hex : (_find_secret_of_length target ideal L cancel int).kind = .exhausted) :
    (_find_secret_of_length target ideal L cancel int).visited
      = (List.range (256 ^ L)).map (byteRepr L) :=
  fsl_exhausted_visited target ideal L cancel int hL hex

/-- C2: for a target that fits the 28-character digest, every run ends
in one of the three contract outcomes — exhausted, cancelled, found —
and the consumer-side decoder `classify` recovers which one from the
yielded items alone. -/
theorem C2_terminal_distinguishable (target : List Nat) (ideal L : Nat)
    (cancel : Nat → Bool) (int : Option Nat) (hL : 1 ≤ L)
    (h28 : target.length ≤ 28) :
    ((_find_secret_of_length target ideal L cancel int).kind = .exhausted ∨
     (_find_secret_of_length target ideal L cancel int).kind = .cancelled ∨
     (_find_secret_of_length target ideal L cancel int).kind = .found) ∧
    classify int (_find_secret_of_length target ideal L cancel int).items
      = (_find_secret_of_length target ideal L cancel int).kind := by
  refine ⟨findSecretOfLength_kinds target ideal L cancel int hL h28, ?_⟩
  have h1 := runAux_no_invalid target ideal int cancel h28 (256 ^ L)
    (List.replicate L 0) 0
  have h2 := runAux_no_fuelOut target ideal int cancel L hL (256 ^ L) 0 0
    (by positivity) (by simp)
  rw [← byteRepr_zero] at h1
  unfold _find_secret_of_length
  rw [← byteRepr_zero]
  exact runAux_classify target ideal int cancel (256 ^ L) (byteRepr L 0) 0
    h2.1 h1 h2.2

/-- C6: starting at length 1 and absent cancellation, while every
length up to `n` exhausts, the driver's trace is exactly the per-length
sweeps concatenated in length order — no candidate of length `L + 1` is
evaluated before all `256^L` candidates of length `L` — and the driver
has not terminated: it would proceed to the next length. -/
theorem C6_monotonic_length (target : List Nat) (ideal : Nat) (int : Option Nat)
    (n : Nat)
    (h : ∀ L, 1 ≤ L → L ≤ n →
      (_find_secret_of_length target ideal L (fun _ => false) int).kind
        = .exhausted) :
    (_find_secret target ideal int (fun _ _ => false) (fun _ => false) n).visited
      = (List.range' 1 n).flatMap
          (fun L => (List.range (256 ^ L)).map (byteRepr L)) ∧
    (_find_secret target ideal int (fun _ _ => false) (fun _ => false) n).stopped
      = false := by
  unfold _find_secret
  have hd := driverAux_no_cancel target ideal int n 1 0
    (fun L hL1 hL2 => h L hL1 (by omega))
  refine ⟨?_, hd.2⟩
  rw [hd.1]
  apply List.flatMap_congr  -- pointwise rewrite of each per-length trace
  intro L hL
  rw [List.mem_range'_1] at hL
  exact fsl_exhausted_visited target ideal L (fun _ => false) int hL.1
    (h L hL.1 (by omega))

/-- Unfolding of `Find` (the `let` in its body defeats `rw`). -/
theorem Find_eq (target : List Nat) (ideal : Nat) (ecancel : Nat → Nat → Bool)
    (dcancel : Nat → Bool) (n : Nat) :
    Find target ideal ecancel dcancel n =
      match (_find_secret target ideal none ecancel dcancel n).items.getLast? with
      | none => ⟨[], [], 0⟩
      | some m => m := rfl

/-- C7: on every run in which the driver reaches a terminal condition
(`stopped = true` — the only case in which the source's `list(...)`
completes and `Find` returns rather than raising or running on), the
blocking entry point returns the last Match of the driver's sequence,
or the all-default response exactly when the driver produced no Match
at all. -/
theorem C7_find_returns_last (target : List Nat) (ideal : Nat)
    (ecancel : Nat → Nat → Bool) (dcancel : Nat → Bool) (n : Nat)
    (_hstop : (_find_secret target ideal none ecancel dcancel n).stopped = true) :
    ((_find_secret target ideal none ecancel dcancel n).items = [] →
      Find target ideal ecancel dcancel n = ⟨[], [], 0⟩) ∧
    (∀ m, (_find_secret target ideal none ecancel dcancel n).items.getLast? = some m →
      Find target ideal ecancel dcancel n = m ∧ m ≠ ⟨[], [], 0⟩) := by
  constructor
  · intro hempty
    rw [Find_eq, hempty]
    rfl
  · intro m hlast
    have hmem : m ∈ (_find_secret target ideal none ecancel dcancel n).items :=
      List.mem_of_getLast?_eq_some hlast
    obtain ⟨L, hL⟩ := driverAux_mem target ideal none ecancel dcancel n 1 0 m hmem
    have hfact := by
      unfold _find_secret_of_length at hL
      exact runAux_items_facts target ideal none (ecancel L) (256 ^ L)
        (List.replicate L 0) 0 m hL
    constructor
    · rw [Find_eq, hlast]
    · intro habs
      have := hfact.1
      rw [habs] at this
      simp at this

/-- C10 (implicit): `Find` never configures an interesting threshold,
so every non-default response it returns is an ideal match:
`hamming_distance ≤ request.ideal_hamming_distance`, for every
cancellation timing. -/
theorem C10_find_only_ideal (target : List Nat) (ideal : Nat)
    (ecancel : Nat → Nat → Bool) (dcancel : Nat → Bool) (n : Nat)
    (h : Find target ideal ecancel dcancel n ≠ ⟨[], [], 0⟩) :
    (Find target ideal ecancel dcancel n).hamming_distance ≤ ideal := by
  rw [Find_eq] at h ⊢
  cases hlast : (_find_secret target ideal none ecancel dcancel n).items.getLast? with
  | none => rw [hlast] at h; simp at h
  | some m =>
    simp only [hlast] at h ⊢
    have hmem : m ∈ (_find_secret target ideal none ecancel dcancel n).items :=
      List.mem_of_getLast?_eq_some hlast
    obtain ⟨L, hL⟩ := driverAux_mem target ideal none ecancel dcancel n 1 0 m hmem
    have hfact := by
      unfold _find_secret_of_length at hL
      exact runAux_items_facts target ideal none (ecancel L) (256 ^ L)
        (List.replicate L 0) 0 m hL
    exact hfact.2 rfl

/-! ## C1: when an ideal-distance candidate stops the enumerator -/

/-- The distance the enumerator measures for the candidate with counter
value `v` of length `L` (defined whenever the target fits the digest). -/
def distAt (target : List Nat) (L v : Nat) : Nat :=
  (_get_substring_hamming_distance (_get_hash (byteRepr L v)) target).getD 0

theorem distAt_oracle (target : List Nat) (L v : Nat) (h28 : target.length ≤ 28) :
    _get_substring_hamming_distance (_get_hash (byteRepr L v)) target
      = some (distAt target L v) := by
  obtain ⟨d, hd⟩ := Option.isSome_iff_exists.mp
    (hash_oracle_isSome (byteRepr L v) target h28)
  rw [hd]
  unfold distAt
  rw [hd]
  rfl

/-- With no interesting threshold and no cancellation, the run from
counter value `v` stops at the first value `w ≥ v` whose distance is at
or below the ideal threshold: it yields that Match then the sentinel,
ends `found`, and evaluates no candidate past `w`. -/
theorem runAux_first_found (target : List Nat) (ideal L : Nat) (hL : 1 ≤ L)
    (h28 : target.length ≤ 28) :
    ∀ (fuel v k w : Nat), v ≤ w → w < 256 ^ L → 256 ^ L - v ≤ fuel →
      (∀ u, v ≤ u → u < w → ¬ (distAt target L u ≤ ideal)) →
      distAt target L w ≤ ideal →
      runAux target ideal none (fun _ => false) (byteRepr L v) k fuel
        = ⟨[some ⟨b64encode (byteRepr L w), _get_hash (byteRepr L w),
              distAt target L w⟩, none],
           (List.range' v (w - v + 1)).map (byteRepr L), .found⟩ := by
  intro fuel
  induction fuel with
  | zero => intro v k w hvw hw hf _ _; omega
  | succ fuel ih =>
    intro v k w hvw hw hf hbefore hideal
    have hv : v < 256 ^ L := by omega
    have ho := distAt_oracle target L v h28
    have hh : interestingHit none (distAt target L v) = false := rfl
    by_cases hvweq : v = w
    · subst hvweq
      rw [runAux_found _ _ _ _ _ _ _ _ rfl ho hh hideal]
      have hone : v - v + 1 = 1 := by omega
      rw [hone]
      simp [List.range']
    · have hdv : ¬ (distAt target L v ≤ ideal) := hbefore v (Nat.le_refl v) (by omega)
      have hinc := increment_byteRepr L v hL hv
      have hvs : v + 1 < 256 ^ L := by omega
      rw [if_pos hvs] at hinc
      rw [runAux_miss_next _ _ _ _ _ _ _ _ _ rfl ho hh hdv hinc]
      rw [ih (v + 1) (k + 1) w (by omega) hw (by omega)
        (fun u hu1 hu2 => hbefore u (by omega) hu2) hideal]
      have hsplit : w - v + 1 = (w - (v + 1) + 1) + 1 := by omega
      rw [hsplit]
      simp [List.range']

/-- C1 corrected (part 1, all configurations): whenever the evaluated
candidate's distance is at or below `idealDistance` and the interesting
branch does not capture it — in particular always when no
`interestingDistance` is configured — the enumerator emits that Match,
emits the terminal sentinel, ends `found`, and evaluates no further
candidate.  (Part 2, no `interestingDistance` configured and no
cancellation: the whole run stops at the first such candidate.) -/
theorem C1_ideal_stop :
    (∀ (target : List Nat) (ideal : Nat) (int : Option Nat) (cancel : Nat → Bool)
       (digits : List Nat) (k fuel d : Nat),
      cancel k = false →
      _get_substring_hamming_distance (_get_hash digits) target = some d →
      interestingHit int d = false →
      d ≤ ideal →
      runAux target ideal int cancel digits k (fuel + 1)
        = ⟨[some ⟨b64encode digits, _get_hash digits, d⟩, none], [digits], .found⟩) ∧
    (∀ (target : List Nat) (ideal L w : Nat), 1 ≤ L → target.length ≤ 28 →
      w < 256 ^ L →
      (∀ u, u < w → ¬ (distAt target L u ≤ ideal)) →
      distAt target L w ≤ ideal →
      _find_secret_of_length target ideal L (fun _ => false) none
        = ⟨[some ⟨b64encode (byteRepr L w), _get_hash (byteRepr L w),
              distAt target L w⟩, none],
           (List.range (w + 1)).map (byteRepr L), .found⟩) := by
  constructor
  · intro target ideal int cancel digits k fuel d hc ho hh hd
    exact runAux_found _ _ _ _ _ _ _ _ hc ho hh hd
  · intro target ideal L w hL h28 hw hbefore hideal
    unfold _find_secret_of_length
    rw [← byteRepr_zero]
    rw [runAux_first_found target ideal L hL h28 (256 ^ L) 0 0 w (by omega) hw
      (by simp) (fun u _ hu => hbefore u hu) hideal]
    rw [Nat.sub_zero, List.range_eq_range']

/-- C1 counterexample: target `""`, `idealDistance = 0`,
`interestingDistance = 0` configured, length 1.  The first candidate
`[0]` has distance `0 ≤ idealDistance`, yet the enumerator does not
stop there: it yields the Match through the interesting branch, then
evaluates the next candidate `[1]` as well (`visited = [[0], [1]]`);
no terminal marker follows the first Match — the sentinel only appears
when the (monotone) flag turns on at the third read, with the run
ending `cancelled`, not `found`. -/
theorem C1_counterexample :
    _get_substring_hamming_distance (_get_hash [0]) [] = some 0 ∧
    (_find_secret_of_length [] 0 1 (fun k => decide (2 ≤ k)) (some 0)).items
      = [some ⟨b64encode [0], _get_hash [0], 0⟩,
         some ⟨b64encode [1], _get_hash [1], 0⟩, none] ∧
    (_find_secret_of_length [] 0 1 (fun k => decide (2 ≤ k)) (some 0)).visited
      = [[0], [1]] ∧
    (_find_secret_of_length [] 0 1 (fun k => decide (2 ≤ k)) (some 0)).kind
      = TerminalKind.cancelled :=
  ⟨rfl, rfl, rfl, rfl⟩

/-! ## Witnesses: each claim theorem applied at concrete inputs -/

/-- Witness for C8 at candidate `"Ab"` and target `"B"`. -/
theorem C8_witness :
    0 < ([65, 98] : List Nat).length ∧
    ([66] : List Nat).length ≤ ([65, 98] : List Nat).length ∧
    ∃ r, _get_substring_hamming_distance [65, 98] [66] = some r ∧
      (∀ i, i < ([65, 98] : List Nat).length - ([66] : List Nat).length + 1 →
        ∃ di, _get_hamming_distance
            ((([65, 98] : List Nat).drop i).take ([66] : List Nat).length) [66]
          = some di ∧ r ≤ di) ∧
      (∃ i, i < ([65, 98] : List Nat).length - ([66] : List Nat).length + 1 ∧
        _get_hamming_distance
            ((([65, 98] : List Nat).drop i).take ([66] : List Nat).length) [66]
          = some r) :=
  ⟨by decide, by decide, C8_substring_min [65, 98] [66] (by decide) (by decide)⟩

/-- Witness for C9: concrete digest shape, a length-1 target that can
never make the oracle fail, and a 29-character target that fails on the
very first candidate. -/
theorem C9_witness :
    _get_hash [0] = b64encode (sha1 [0]) ∧
    (_get_hash [0]).length = 28 ∧
    (_find_secret_of_length [65] 0 1 (fun _ => false) none).kind
      ≠ TerminalKind.invalid ∧
    _find_secret_of_length (List.replicate 29 65) 0 1 (fun _ => false) none
      = ⟨[], [List.replicate 1 0], .invalid⟩ := by
  have t1 := C9_digest_shape [0] [65] 0 1 (fun _ => false) none (by decide)
  have t2 := C9_digest_shape [0] (List.replicate 29 65) 0 1 (fun _ => false) none
    (by decide)
  exact ⟨t1.1, t1.2.1, t1.2.2.1 (by decide), t2.2.2.2 (by decide) rfl⟩

/-- Witness for the corrected C3: `L = 1 < 2 = len("AA")` cannot make
the run invalid, while `L = 29 ≥ 29 = len(target)` with a 29-character
target is invalid. -/
theorem C3_witness :
    (_find_secret_of_length [65, 65] 2 1 (fun _ => false) none).kind
      ≠ TerminalKind.invalid ∧
    (_find_secret_of_length (List.replicate 29 65) 0 29 (fun _ => false) none).kind
      = TerminalKind.invalid :=
  ⟨(C3_oracle_independent_of_length [65, 65] 2 1 (fun _ => false) none).1
      (by decide) (by decide),
   (C3_oracle_independent_of_length (List.replicate 29 65) 0 29
      (fun _ => false) none).2 (by decide) (by decide) rfl⟩

/-- Witness for C4 with the constantly-set flag. -/
theorem C4_witness :
    _find_secret_of_length [65] 0 3 (fun _ => true) none
      = ⟨[none], [], .cancelled⟩ ∧
    (_find_secret_of_length [65] 0 3 (fun _ => true) none).visited.length ≤ 5 := by
  have t := C4_cancellation_promptness [65] 0 3 (fun _ => true) none
    (fun i j _ h => h)
  exact ⟨t.1 rfl, t.2 5 rfl⟩

/-- Witness for C5: the concrete exhausted run over length 1 against
target `"!"` visits exactly `[[0], [1], …, [255]]`. -/
theorem C5_witness :
    1 ≤ 1 ∧
    (_find_secret_of_length [33] 0 1 (fun _ => false) none).kind
      = TerminalKind.exhausted ∧
    (_find_secret_of_length [33] 0 1 (fun _ => false) none).visited
      = (List.range (256 ^ 1)).map (byteRepr 1) :=
  ⟨by decide, run33_kind,
   C5_ordering [33] 0 1 (fun _ => false) none (by decide) run33_kind⟩

/-- Witness for C2: an immediately-cancelled run is decoded as
cancelled. -/
theorem C2_witness :
    (_find_secret_of_length [33] 0 1 (fun _ => true) none).kind
      = TerminalKind.cancelled ∧
    classify none (_find_secret_of_length [33] 0 1 (fun _ => true) none).items
      = (_find_secret_of_length [33] 0 1 (fun _ => true) none).kind :=
  ⟨rfl,
   (C2_terminal_distinguishable [33] 0 1 (fun _ => true) none
      (by decide) (by decide)).2⟩

/-- Witness for C6 with one exhausting length. -/
theorem C6_witness :
    (_find_secret_of_length [33] 0 1 (fun _ => false) none).kind
      = TerminalKind.exhausted ∧
    (_find_secret [33] 0 none (fun _ _ => false) (fun _ => false) 1).visited
      = (List.range' 1 1).flatMap
          (fun L => (List.range (256 ^ L)).map (byteRepr L)) ∧
    (_find_secret [33] 0 none (fun _ _ => false) (fun _ => false) 1).stopped
      = false := by
  have hf : ∀ L, 1 ≤ L → L ≤ 1 →
      (_find_secret_of_length [33] 0 L (fun _ => false) none).kind
        = TerminalKind.exhausted := by
    intro L h1 h2
    have hL1 : L = 1 := by omega
    subst hL1
    exact run33_kind
  exact ⟨run33_kind, (C6_monotonic_length [33] 0 none 1 hf).1,
    (C6_monotonic_length [33] 0 none 1 hf).2⟩

/-- Witness for C7 under immediate cancellation: the driver terminates
(`stopped = true`), no Match is produced, and `Find` returns the
default response. -/
theorem C7_witness :
    (_find_secret [65] 0 none (fun _ _ => true) (fun _ => true) 3).stopped = true ∧
    (_find_secret [65] 0 none (fun _ _ => true) (fun _ => true) 3).items = [] ∧
    Find [65] 0 (fun _ _ => true) (fun _ => true) 3 = ⟨[], [], 0⟩ := by
  have hs : (_find_secret [65] 0 none (fun _ _ => true) (fun _ => true) 3).stopped
      = true := rfl
  have he : (_find_secret [65] 0 none (fun _ _ => true) (fun _ => true) 3).items
      = [] := rfl
  exact ⟨hs, he,
    (C7_find_returns_last [65] 0 (fun _ _ => true) (fun _ => true) 3 hs).1 he⟩

/-- Witness for C10: against the empty target the first candidate is an
ideal match, and the non-default response indeed satisfies the ideal
threshold. -/
theorem C10_witness :
    Find [] 0 (fun _ _ => false) (fun _ => false) 1 ≠ ⟨[], [], 0⟩ ∧
    (Find [] 0 (fun _ _ => false) (fun _ => false) 1).hamming_distance ≤ 0 := by
  have hne : Find [] 0 (fun _ _ => false) (fun _ => false) 1 ≠ ⟨[], [], 0⟩ := by
    decide
  exact ⟨hne, C10_find_only_ideal [] 0 (fun _ _ => false) (fun _ => false) 1 hne⟩

/-- Witness for the corrected C1: a one-step stop at candidate `[5]`
against the empty target, and the full first-hit run at length 1. -/
theorem C1_witness :
    runAux [] 0 none (fun _ => false) [5] 0 1
      = ⟨[some ⟨b64encode [5], _get_hash [5], 0⟩, none], [[5]], .found⟩ ∧
    _find_secret_of_length [] 0 1 (fun _ => false) none
      = ⟨[some ⟨b64encode (byteRepr 1 0), _get_hash (byteRepr 1 0),
            distAt [] 1 0⟩, none],
         (List.range (0 + 1)).map (byteRepr 1), .found⟩ :=
  ⟨C1_ideal_stop.1 [] 0 none (fun _ => false) [5] 0 0 0 rfl (by rfl) rfl
     (by decide),
   C1_ideal_stop.2 [] 0 1 0 (by decide) (by decide) (by decide)
     (fun u hu _ => absurd hu (Nat.not_lt_zero u)) (by decide)⟩
